import Mathlib

/-!
Verification development for the go-on/queue function-queue package.

The Go package runs an ordered list of callables ("calls"), piping the
non-error outputs of one call into the argument list of the next wherever
the pseudo argument PIPE occurs, and routing step errors through a
pluggable error handler.  We embed the converged multi-file version of the
source (call descriptors with optional names, tees, feeds, Run, Fallback,
Check and the structured error types) shallowly:

* `Ty` stands for a `reflect.Type`; the distinguished constructor `Ty.err`
  is the type whose `String()` is exactly "error" (the built-in error
  interface); `Ty.slice t` is a slice type with `Elem() = t` (used for the
  variadic tail); every other type is `Ty.named s`.
* `RVal` is a runtime value: `RVal.data n` is an opaque non-error value,
  `RVal.nilable e` is a value of an interface type that may be nil
  (`none` = nil) - the shape a value declared `error` always has in Go.
* A callable's runtime behaviour is a function from its resolved argument
  list to `CallBehavior`: it either panics with a message or returns a
  list of values (for a well-typed Go function, one per declared output).
* The runner functions additionally return a trace of events (`Ev`):
  which positions were invoked (and with which step error), which tee
  calls ran, and which feed queues had their start values assigned.  The
  Go code's observable side effects are exactly these events; the traces
  let us state "step X never executes" claims.
* `reflect.Type.AssignableTo` is an external oracle of the Go runtime, so
  the validation functions are parameterised over an assignability
  predicate `asg : Ty → Ty → Bool`.
-/

namespace GoQueue

/-- A Go `reflect.Type`, as far as the queue package inspects it:
`Ty.err` is the unique type with `String() == "error"`, `Ty.slice t`
has `Elem() = t`, anything else is opaque. -/
inductive Ty where
  | err : Ty
  | slice (t : Ty) : Ty
  | named (s : String) : Ty
deriving DecidableEq

/-- `reflect.Type.Elem()`: the element type of a slice type.  The queue
package only calls it on the (slice-typed) final parameter of a variadic
function; on other types we return the type itself (Go would panic). -/
def Ty.elem : Ty → Ty
  | .slice t => t
  | t => t

/-- A runtime value as the queue package distinguishes them: `data` is an
opaque non-error value, `nilable` is an interface value that may be nil
(`none` = Go nil) - the runtime shape of a value whose declared type is
`error`. -/
inductive RVal where
  | data (n : Nat) : RVal
  | nilable (e : Option Nat) : RVal
deriving DecidableEq

/-- One element of a call's argument list: a literal value (carrying the
type `reflect.TypeOf` reports for it) or the pseudo argument PIPE. -/
inductive Arg where
  | lit (t : Ty) (v : RVal) : Arg
  | pipe : Arg
deriving DecidableEq

/-- PIPE is the pseudo parameter replaced by the returned non-error
values of the previous function. -/
def PIPE : Arg := Arg.pipe

/-- What happens when a callable is invoked with a resolved argument
list: it panics with a message, or it returns its output values. -/
inductive CallBehavior where
  | panics (msg : String) : CallBehavior
  | returns (vals : List RVal) : CallBehavior

/-- The structured payload of the validation error strings built by
`validateNums` / `validateArgs` (`fmt.Errorf` in the source): either an
arity complaint (wants/gets, with the "at least" variant for variadic
functions) or a complaint about one argument, carrying the 1-based
argument index used in the message and the two types compared. -/
inductive VErr where
  | numErr (wants gets : Nat) (atLeast : Bool) : VErr
  | argErr (idx : Nat) (is should : Ty) : VErr
deriving DecidableEq

/-- The errors the queue package produces or transports:
`step e` is an ordinary business error returned as a callable's trailing
error value; `callPanic` is the `CallPanic` struct built when a call
panics (position, name, type signature string, resolved argument values,
panic message); `invalidFunc` / `invalidArgument` are the `InvalidFunc` /
`InvalidArgument` structs built by `validateFn`. -/
inductive QError where
  | step (e : Nat) : QError
  | callPanic (pos : Nat) (name : String) (ty : String)
      (params : List RVal) (msg : String) : QError
  | invalidFunc (pos : Nat) (name : String) (ty : String) : QError
  | invalidArgument (pos : Nat) (name : String) (ty : String) (ve : VErr) : QError
deriving DecidableEq

/-- The position field carried by a structural or panic error (its value
for a plain step error is irrelevant; we return 0). -/
def QError.position : QError → Nat
  | .step _ => 0
  | .callPanic p _ _ _ _ => p
  | .invalidFunc p _ _ => p
  | .invalidArgument p _ _ _ => p

/-- `ErrHandler.HandleError`: given a non-nil error, return nil
(swallow, continue) - here `none` - or an error (stop). -/
abbrev ErrHandler := QError → Option QError

/-- The predefined handler STOP: returns the error unchanged. -/
def STOP : ErrHandler := fun e => some e

/-- The predefined handler IGNORE: swallows every error. -/
def IGNORE : ErrHandler := fun _ => none

/-- One call descriptor (`type call struct` plus what the package reads
off `c.function` through reflect): whether the bound value is a func,
its declared input types and variadic flag, its declared output types,
the argument list, the runtime behaviour, the optional name and the
signature string `c.function.Type().String()`. -/
structure call where
  isFunc : Bool := true
  inTypes : List Ty := []
  variadic : Bool := false
  outTypes : List Ty := []
  arguments : List Arg := []
  behavior : List RVal → CallBehavior := fun _ => .returns []
  name : String := ""
  sig : String := ""

/-- The queue: functions with their arguments, the optional error
handler, start values, and per-position tee calls and feed-queue counts
(`tees` / `feed` maps in the source; for a feed queue the only observable
effect inside a run is the assignment of its start values, so we keep
only how many feed queues are registered per position). -/
structure Queue where
  functions : List call := []
  errHandler : Option ErrHandler := none
  startValues : List RVal := []
  tees : Nat → List call := fun _ => []
  nfeeds : Nat → Nat := fun _ => 0

/-- Trace events of a run: `Ev.call i res` - the main function at
position `i` was invoked and its `pipeFn` error was `res`;
`Ev.tee pos idx` - the tee call `idx` registered at `pos` was invoked;
`Ev.feed pos` - one feed queue registered at `pos` had its start values
assigned. -/
inductive Ev where
  | call (pos : Nat) (res : Option QError) : Ev
  | tee (pos : Nat) (idx : Nat) : Ev
  | feed (pos : Nat) : Ev
deriving DecidableEq

/-- The argument-resolution loop at the top of `pipeFn`: build the actual
argument list by walking `c.arguments`, appending the whole piped value
list at each PIPE and the literal value otherwise. -/
def resolveArgs (arguments : List Arg) (piped : List RVal) : List RVal :=
  arguments.foldl
    (fun all p =>
      match p with
      | .pipe => all ++ piped
      | .lit _ v => all ++ [v])
    []

/-- `pipeFn`: resolve the arguments, invoke the callable (a panic is
caught and converted into a `CallPanic` carrying position, name,
signature and the resolved arguments, with no return values), and if the
declared final output type's `String()` is "error", strip the final
returned value and surface it (when non-nil) as the step error. -/
def pipeFn (c : call) (i : Nat) (piped : List RVal) : List RVal × Option QError :=
  let all := resolveArgs c.arguments piped
  match c.behavior all with
  | .panics msg => ([], some (.callPanic i c.name c.sig all msg))
  | .returns rets =>
    let num := c.outTypes.length
    if num = 0 then (rets, none)
    else if c.outTypes[num - 1]? = some Ty.err then
      let e : Option QError :=
        match rets[num - 1]? with
        | some (.nilable (some e)) => some (.step e)
        | _ => none
      (rets.take (num - 1), e)
    else (rets, none)

/-- The tee loop of `runTeesAndFeed`: run the tee calls registered at
`pos` in order (at pseudo position `pos*100+idx`), returning the first
tee error; later tees are not invoked after an error. -/
def runTees (tees : List call) (pos : Nat) (idx : Nat) (vals : List RVal) :
    Option QError × List Ev :=
  match tees with
  | [] => (none, [])
  | t :: ts =>
    match (pipeFn t (pos * 100 + idx) vals).2 with
    | some e => (some e, [.tee pos idx])
    | none =>
      let r := runTees ts pos (idx + 1) vals
      (r.1, .tee pos idx :: r.2)

/-- `runTeesAndFeed`: assign `vals` as the start values of every feed
queue registered at `pos`, then run the tees. -/
def runTeesAndFeedT (tees : Nat → List call) (nf : Nat → Nat) (pos : Nat)
    (vals : List RVal) : Option QError × List Ev :=
  let r := runTees (tees pos) pos 0 vals
  (r.1, List.replicate (nf pos) (.feed pos) ++ r.2)

/-- The loop of `Run`, from position `i` with current piped values:
invoke the call; a non-nil step error goes to the handler and a non-nil
handler result stops the run; otherwise `runTeesAndFeed` runs, a tee
error goes to the same handler with the same stop semantics, and the
loop continues with the call's (stripped) return values. -/
def runFromT (h : ErrHandler) (tees : Nat → List call) (nf : Nat → Nat) :
    List call → Nat → List RVal → Option QError × List Ev
  | [], _, _ => (none, [])
  | c :: cs, i, vals =>
    let pr := pipeFn c i vals
    let stepHandled : Option QError :=
      match pr.2 with
      | some e => h e
      | none => none
    match stepHandled with
    | some e2 => (some e2, [.call i pr.2])
    | none =>
      let tf := runTeesAndFeedT tees nf i pr.1
      let teeHandled : Option QError :=
        match tf.1 with
        | some te => h te
        | none => none
      match teeHandled with
      | some e2 => (some e2, .call i pr.2 :: tf.2)
      | none =>
        let r := runFromT h tees nf cs (i + 1) pr.1
        (r.1, .call i pr.2 :: tf.2 ++ r.2)

/-- `Run` with its event trace.  The default error handler is STOP. -/
def Queue.RunT (q : Queue) : Option QError × List Ev :=
  runFromT (q.errHandler.getD STOP) q.tees q.nfeeds q.functions 0 q.startValues

/-- `Run()`: the returned error of a run. -/
def Queue.Run (q : Queue) : Option QError := q.RunT.1

/-- The loop of `Fallback`, from position `i`, carrying the last visited
position and its original step error (the named return values `pos` and
`err` of the source, which survive the loop when the handler swallows
the error): success at `i` assigns the feed start values and stops with
`(i, nil)`; an unswallowed (step or tee) error stops with the handler's
error; a swallowed step error runs `runTeesAndFeed` and continues; when
the list is exhausted the last position and its original error are
returned. -/
def fallbackFromT (h : ErrHandler) (tees : Nat → List call) (nf : Nat → Nat) :
    List call → Nat → List RVal → Nat → Option QError → Nat × Option QError × List Ev
  | [], _, _, lastPos, lastErr => (lastPos, lastErr, [])
  | c :: cs, i, vals, _, _ =>
    let pr := pipeFn c i vals
    match pr.2 with
    | none => (i, none, .call i none :: List.replicate (nf i) (.feed i))
    | some e =>
      match h e with
      | some e2 => (i, some e2, [.call i (some e)])
      | none =>
        let tf := runTeesAndFeedT tees nf i pr.1
        let teeHandled : Option QError :=
          match tf.1 with
          | some te => h te
          | none => none
        match teeHandled with
        | some e2 => (i, some e2, .call i (some e) :: tf.2)
        | none =>
          let r := fallbackFromT h tees nf cs (i + 1) pr.1 i (some e)
          (r.1, r.2.1, .call i (some e) :: tf.2 ++ r.2.2)

/-- `Fallback` with its event trace.  The default error handler is
IGNORE. -/
def Queue.FallbackT (q : Queue) : Nat × Option QError × List Ev :=
  fallbackFromT (q.errHandler.getD IGNORE) q.tees q.nfeeds q.functions 0
    q.startValues 0 none

/-- `Fallback()`: the returned position and error. -/
def Queue.Fallback (q : Queue) : Nat × Option QError :=
  (q.FallbackT.1, q.FallbackT.2.1)

/-- The argument-type resolution loop of `validateFn`: walk the argument
list, appending the previously computed piped output types at each PIPE
and `reflect.TypeOf` of the literal otherwise. -/
def resolveArgTypes (arguments : List Arg) (piped : List Ty) : List Ty :=
  arguments.foldl
    (fun all p =>
      match p with
      | .pipe => all ++ piped
      | .lit t _ => all ++ [t])
    []

/-- `validateNums`: check the argument count against the function's
declared input count, returning `(numIns, numArgs, diff, err)`.  The
count is accepted when it is equal, or when the function is variadic and
at most one argument (the variadic slice) is missing. -/
def validateNums (inTys : List Ty) (variadic : Bool) (args : List Ty) :
    Nat × Nat × Int × Option VErr :=
  let numIns := inTys.length
  let numArgs := args.length
  let diff : Int := (numArgs : Int) - (numIns : Int)
  if diff = 0 then (numIns, numArgs, diff, none)
  else if variadic = false then (numIns, numArgs, diff, some (.numErr numIns numArgs false))
  else if diff < -1 then (numIns, numArgs, diff, some (.numErr numIns numArgs true))
  else (numIns, numArgs, diff, none)

/-- The fixed-parameter loop of `validateArgs` (`for i := 0; i < limit`),
written with the remaining iteration count explicit: check that each
argument type from index `i` on (for `fuel` positions) is assignable to
the corresponding declared input type, reporting the first offender with
its 1-based index. -/
def fixedLoop (asg : Ty → Ty → Bool) (inTys args : List Ty) :
    Nat → Nat → Option VErr
  | _, 0 => none
  | i, fuel + 1 =>
    let is := args.getD i Ty.err
    let should := inTys.getD i Ty.err
    if asg is should then fixedLoop asg inTys args (i + 1) fuel
    else some (.argErr (i + 1) is should)

/-- The variadic-tail loop of `validateArgs` (`for i := 0; i < diff+1`):
check that each argument type from index `j` on (for `fuel` positions)
is assignable to the variadic element type `shd`, reporting the first
offender with its 1-based index. -/
def variLoop (asg : Ty → Ty → Bool) (shd : Ty) (args : List Ty) :
    Nat → Nat → Option VErr
  | _, 0 => none
  | j, fuel + 1 =>
    let is := args.getD j Ty.err
    if asg is shd then variLoop asg shd args (j + 1) fuel
    else some (.argErr (j + 1) is shd)

/-- `validateArgs`: arity check via `validateNums`, then per-position
assignability of the fixed parameters (skipping the variadic slot), then
assignability of every remaining argument to the variadic element type
`fn.In(numIns-1).Elem()`. -/
def validateArgs (asg : Ty → Ty → Bool) (inTys : List Ty) (variadic : Bool)
    (args : List Ty) : Option VErr :=
  let n := validateNums inTys variadic args
  let numIns := n.1
  let diff := n.2.2.1
  match n.2.2.2 with
  | some e => some e
  | none =>
    if numIns = 0 then none
    else
      let limit := if variadic then numIns - 1 else numIns
      match fixedLoop asg inTys args 0 limit with
      | some e => some e
      | none =>
        if variadic = false then none
        else
          let should := (inTys.getD (numIns - 1) Ty.err).elem
          variLoop asg should args (numIns - 1) (diff + 1).toNat

/-- `validateFn`: the call at position `i` must be a func (else
`InvalidFunc`); its resolved argument types must pass `validateArgs`
(else `InvalidArgument`); on success the types flowing out are the
declared output types, with the final one dropped when its `String()` is
"error". -/
def validateFn (asg : Ty → Ty → Bool) (c : call) (i : Nat) (piped : List Ty) :
    List Ty × Option QError :=
  if c.isFunc = false then ([], some (.invalidFunc i c.name c.sig))
  else
    let all := resolveArgTypes c.arguments piped
    match validateArgs asg c.inTypes c.variadic all with
    | some ve => ([], some (.invalidArgument i c.name c.sig ve))
    | none =>
      let num := c.outTypes.length
      if num = 0 then ([], none)
      else
        let num2 := if c.outTypes[num - 1]? = some Ty.err then num - 1 else num
        (c.outTypes.take num2, none)

/-- The loop of `Check`, threading the computed output types and
stopping at the first validation error. -/
def checkFrom (asg : Ty → Ty → Bool) : List call → Nat → List Ty → Option QError
  | [], _, _ => none
  | c :: cs, i, piped =>
    match validateFn asg c i piped with
    | (_, some e) => some e
    | (tys, none) => checkFrom asg cs (i + 1) tys

/-- `Check()`: walk the queue positions in ascending order, validating
each call, and return the first error. -/
def Check (asg : Ty → Ty → Bool) (q : Queue) : Option QError :=
  checkFrom asg q.functions 0 []

/-- `CheckAndRun()` (with trace): return Check's error without running
anything, otherwise run. -/
def CheckAndRunT (asg : Ty → Ty → Bool) (q : Queue) : Option QError × List Ev :=
  match Check asg q with
  | some e => (some e, [])
  | none => q.RunT

/-- `CheckAndFallback()` (with trace): return Check's error (with the
zero position) without running anything, otherwise fall back. -/
def CheckAndFallbackT (asg : Ty → Ty → Bool) (q : Queue) :
    Nat × Option QError × List Ev :=
  match Check asg q with
  | some e => (0, some e, [])
  | none => q.FallbackT

/-- The specification-side reading of placeholder substitution: each
PIPE expands to the whole piped list, a literal stays itself. -/
def expandArg (piped : List RVal) : Arg → List RVal
  | .pipe => piped
  | .lit _ v => [v]

/-! ### Helper lemmas -/

lemma foldl_resolveArgs (piped : List RVal) :
    ∀ (args : List Arg) (acc : List RVal),
      List.foldl
        (fun all p =>
          match p with
          | Arg.pipe => all ++ piped
          | Arg.lit _ v => all ++ [v])
        acc args
        = acc ++ args.flatMap (expandArg piped) := by
  intro args
  induction args with
  | nil => intro acc; simp
  | cons a as ih =>
    intro acc
    cases a <;> simp [List.foldl_cons, ih, expandArg, List.append_assoc]

/-- C1: in the resolved argument list built by `pipeFn`, every
occurrence of the placeholder PIPE is replaced in place by the entire
piped value list (the previous step's Execution Value Set), every
literal argument keeps its relative position, and the result is exactly
this interleaving (the flat expansion of the argument list). -/
theorem c1_placeholder_substitution (args : List Arg) (piped : List RVal) :
    resolveArgs args piped = args.flatMap (expandArg piped) := by
  simpa [resolveArgs] using foldl_resolveArgs piped args []

lemma pipeFn_strip (c : call) (i : Nat) (piped : List RVal) (rets : List RVal)
    (oe : Option Nat)
    (hb : c.behavior (resolveArgs c.arguments piped) = .returns rets)
    (hlen : rets.length = c.outTypes.length)
    (hlast : c.outTypes.getLast? = some Ty.err)
    (hrlast : rets.getLast? = some (.nilable oe)) :
    pipeFn c i piped = (rets.dropLast, oe.map QError.step) := by
  have hne : ¬ c.outTypes.length = 0 := by
    intro h0
    rw [List.length_eq_zero] at h0
    rw [h0] at hlast
    simp at hlast
  have hidx : c.outTypes[c.outTypes.length - 1]? = some Ty.err := by
    rw [← List.getLast?_eq_getElem?]; exact hlast
  have hridx : rets[c.outTypes.length - 1]? = some (RVal.nilable oe) := by
    rw [← hlen, ← List.getLast?_eq_getElem?]; exact hrlast
  cases oe <;>
    simp [pipeFn, hb, hne, hidx, hridx, List.dropLast_eq_take, hlen]

/-- C2: when a callable's declared final output type is `error`, the
produced Execution Value Set is the return list without that final
output, the step error is non-nil exactly when the final output value is
non-nil at runtime, and only that value (as a step error) is what a run
hands to the error handler. -/
theorem c2_trailing_error_convention
    (c : call) (i : Nat) (piped : List RVal) (rets : List RVal) (oe : Option Nat)
    (hb : c.behavior (resolveArgs c.arguments piped) = .returns rets)
    (hlen : rets.length = c.outTypes.length)
    (hlast : c.outTypes.getLast? = some Ty.err)
    (hrlast : rets.getLast? = some (.nilable oe)) :
    (pipeFn c i piped).1 = rets.dropLast ∧
    (pipeFn c i piped).2 = oe.map QError.step ∧
    (∀ (h : ErrHandler) (e : Nat), oe = some e →
      (Queue.mk [c] (some h) piped (fun _ => []) (fun _ => 0)).Run
        = h (.step e)) := by
  have hp := pipeFn_strip c i piped rets oe hb hlen hlast hrlast
  refine ⟨by rw [hp], by rw [hp], ?_⟩
  intro h e hoe
  subst hoe
  have hp0 := pipeFn_strip c 0 piped rets (some e) hb hlen hlast hrlast
  unfold Queue.Run Queue.RunT
  cases hh : h (QError.step e) <;>
    simp [runFromT, hp0, hh, runTeesAndFeedT, runTees]

def c2call : call :=
  { outTypes := [Ty.named "int", Ty.err],
    behavior := fun _ => .returns [.data 4, .nilable (some 7)] }

theorem c2_witness :
    (pipeFn c2call 0 []).1 = [RVal.data 4] ∧
    (pipeFn c2call 0 []).2 = some (QError.step 7) ∧
    (Queue.mk [c2call] (some STOP) [] (fun _ => []) (fun _ => 0)).Run
      = some (QError.step 7) := by
  have h := c2_trailing_error_convention c2call 0 []
    [RVal.data 4, RVal.nilable (some 7)] (some 7) rfl rfl rfl rfl
  exact ⟨h.1, h.2.1, h.2.2 STOP 7 rfl⟩

/-- C10: trailing-error stripping applies only when the declared final
return type is exactly the built-in `error` interface; for any other
final return type (a concrete error implementation included) the last
value stays in the Execution Value Set and no step error is produced,
and validation propagates the full output type list by the same rule. -/
theorem c10_exact_error_type_only
    (c : call) (i : Nat) (piped : List RVal) (rets : List RVal)
    (hb : c.behavior (resolveArgs c.arguments piped) = .returns rets)
    (hne : c.outTypes ≠ [])
    (hlast : c.outTypes.getLast? ≠ some Ty.err) :
    pipeFn c i piped = (rets, none) ∧
    (∀ (asg : Ty → Ty → Bool) (pipedT : List Ty), c.isFunc = true →
      validateArgs asg c.inTypes c.variadic (resolveArgTypes c.arguments pipedT)
        = none →
      validateFn asg c i pipedT = (c.outTypes, none)) := by
  have hlen : ¬ c.outTypes.length = 0 := by
    intro h0; exact hne (List.length_eq_zero.mp h0)
  have hidx : ¬ c.outTypes[c.outTypes.length - 1]? = some Ty.err := by
    rw [← List.getLast?_eq_getElem?]; exact hlast
  constructor
  · simp [pipeFn, hb, hlen, hidx]
  · intro asg pipedT hfn hva
    simp [validateFn, hfn, hva, hlen, hidx]

def c10call : call :=
  { outTypes := [Ty.named "int", Ty.named "myError"],
    behavior := fun _ => .returns [.data 4, .nilable (some 9)] }

theorem c10_witness :
    pipeFn c10call 0 [] = ([RVal.data 4, RVal.nilable (some 9)], none) ∧
    validateFn (fun a b => a == b) c10call 0 []
      = ([Ty.named "int", Ty.named "myError"], none) := by
  have h := c10_exact_error_type_only c10call 0 []
    [RVal.data 4, RVal.nilable (some 9)] rfl (by decide) (by decide)
  exact ⟨h.1, h.2 (fun a b => a == b) [] rfl rfl⟩

/-- C7: a panic during a call does not escape: `pipeFn` converts it into
a `CallPanic` error carrying the position, the call's optional name, the
declared type signature and the actual resolved argument values (with no
return values), and a run routes this error through the error handler
exactly like an ordinary step error. -/
theorem c7_panic_containment
    (c : call) (i : Nat) (piped : List RVal) (msg : String)
    (hb : c.behavior (resolveArgs c.arguments piped) = .panics msg) :
    pipeFn c i piped
      = ([], some (.callPanic i c.name c.sig (resolveArgs c.arguments piped) msg)) ∧
    (∀ (h : ErrHandler),
      (Queue.mk [c] (some h) piped (fun _ => []) (fun _ => 0)).Run
        = h (.callPanic 0 c.name c.sig (resolveArgs c.arguments piped) msg)) := by
  constructor
  · simp [pipeFn, hb]
  · intro h
    unfold Queue.Run Queue.RunT
    cases hh : h (QError.callPanic 0 c.name c.sig (resolveArgs c.arguments piped) msg) <;>
      simp [runFromT, pipeFn, hb, hh, runTeesAndFeedT, runTees]

def c7call : call :=
  { arguments := [Arg.lit (Ty.named "int") (RVal.data 3)],
    behavior := fun _ => .panics "boom",
    name := "step1",
    sig := "func(int)" }

theorem c7_witness :
    pipeFn c7call 2 [] =
      ([], some (.callPanic 2 "step1" "func(int)" [RVal.data 3] "boom")) ∧
    (Queue.mk [c7call] (some STOP) [] (fun _ => []) (fun _ => 0)).Run
      = some (.callPanic 0 "step1" "func(int)" [RVal.data 3] "boom") := by
  have h2 := c7_panic_containment c7call 2 [] "boom" rfl
  have h0 := c7_panic_containment c7call 0 [] "boom" rfl
  exact ⟨h2.1, h0.2 STOP⟩

/-! ### Trace lemmas: which events a run can contain -/

lemma call_not_mem_runTees (ts : List call) (pos idx : Nat) (vals : List RVal)
    (j : Nat) (r : Option QError) :
    Ev.call j r ∉ (runTees ts pos idx vals).2 := by
  induction ts generalizing idx with
  | nil => simp [runTees]
  | cons t ts ih =>
    cases hpr : (pipeFn t (pos * 100 + idx) vals).2 <;>
      simp [runTees, hpr, ih]

lemma call_not_mem_teesAndFeed (tees : Nat → List call) (nf : Nat → Nat)
    (pos : Nat) (vals : List RVal) (j : Nat) (r : Option QError) :
    Ev.call j r ∉ (runTeesAndFeedT tees nf pos vals).2 := by
  simp only [runTeesAndFeedT, List.mem_append]
  rintro (hmem | hmem)
  · rcases List.eq_of_mem_replicate hmem with h
    exact Ev.noConfusion h
  · exact call_not_mem_runTees _ _ _ _ _ _ hmem

lemma fallback_call_pos_lb (h : ErrHandler) (tees : Nat → List call)
    (nf : Nat → Nat) :
    ∀ (cs : List call) (i : Nat) (vals : List RVal) (lp : Nat)
      (le : Option QError) (j : Nat) (r : Option QError),
      Ev.call j r ∈ (fallbackFromT h tees nf cs i vals lp le).2.2 → i ≤ j := by
  intro cs
  induction cs with
  | nil => intro i vals lp le j r hmem; simp [fallbackFromT] at hmem
  | cons c cs ih =>
    intro i vals lp le j r hmem
    rcases hpr : (pipeFn c i vals).2 with _ | e
    · simp only [fallbackFromT, hpr] at hmem
      rcases List.mem_cons.mp hmem with heq | hmem
      · cases heq; omega
      · rcases List.eq_of_mem_replicate hmem with h'
        exact Ev.noConfusion h'
    · rcases hh : h e with _ | e2
      · rcases htf : (runTeesAndFeedT tees nf i (pipeFn c i vals).1).1 with _ | te
        · simp only [fallbackFromT, hpr, hh, htf] at hmem
          rcases List.mem_cons.mp hmem with heq | hmem
          · cases heq; omega
          · rcases List.mem_append.mp hmem with hmem | hmem
            · exact absurd hmem (call_not_mem_teesAndFeed _ _ _ _ _ _)
            · have := ih (i + 1) _ i (some e) j r hmem
              omega
        · rcases hth : h te with _ | e3
          · simp only [fallbackFromT, hpr, hh, htf, hth] at hmem
            rcases List.mem_cons.mp hmem with heq | hmem
            · cases heq; omega
            · rcases List.mem_append.mp hmem with hmem | hmem
              · exact absurd hmem (call_not_mem_teesAndFeed _ _ _ _ _ _)
              · have := ih (i + 1) _ i (some e) j r hmem
                omega
          · simp only [fallbackFromT, hpr, hh, htf, hth] at hmem
            rcases List.mem_cons.mp hmem with heq | hmem
            · cases heq; omega
            · exact absurd hmem (call_not_mem_teesAndFeed _ _ _ _ _ _)
      · simp only [fallbackFromT, hpr, hh] at hmem
        rcases List.mem_cons.mp hmem with heq | hmem
        · cases heq; omega
        · simp at hmem

lemma fallback_stops_at_success (h : ErrHandler) (tees : Nat → List call)
    (nf : Nat → Nat) :
    ∀ (cs : List call) (i : Nat) (vals : List RVal) (lp : Nat)
      (le : Option QError) (p : Nat),
      Ev.call p none ∈ (fallbackFromT h tees nf cs i vals lp le).2.2 →
      (fallbackFromT h tees nf cs i vals lp le).1 = p ∧
      (fallbackFromT h tees nf cs i vals lp le).2.1 = none ∧
      ∀ j r, Ev.call j r ∈ (fallbackFromT h tees nf cs i vals lp le).2.2 → j ≤ p := by
  intro cs
  induction cs with
  | nil => intro i vals lp le p hmem; simp [fallbackFromT] at hmem
  | cons c cs ih =>
    intro i vals lp le p hmem
    rcases hpr : (pipeFn c i vals).2 with _ | e
    · have hp : p = i := by
        simp only [fallbackFromT, hpr] at hmem
        rcases List.mem_cons.mp hmem with heq | hmem
        · cases heq; rfl
        · rcases List.eq_of_mem_replicate hmem with h'
          exact Ev.noConfusion h'
      subst hp
      refine ⟨by simp [fallbackFromT, hpr], by simp [fallbackFromT, hpr], ?_⟩
      intro j r hj
      simp only [fallbackFromT, hpr] at hj
      rcases List.mem_cons.mp hj with heq | hj
      · cases heq; omega
      · rcases List.eq_of_mem_replicate hj with h'
        exact Ev.noConfusion h'
    · rcases hh : h e with _ | e2
      · rcases htf : (runTeesAndFeedT tees nf i (pipeFn c i vals).1).1 with _ | te
        · simp only [fallbackFromT, hpr, hh, htf] at hmem ⊢
          have hmem' : Ev.call p none ∈
              (fallbackFromT h tees nf cs (i + 1) (pipeFn c i vals).1 i
                (some e)).2.2 := by
            rcases List.mem_cons.mp hmem with heq | hmem
            · cases heq
            · rcases List.mem_append.mp hmem with hmem | hmem
              · exact absurd hmem (call_not_mem_teesAndFeed _ _ _ _ _ _)
              · exact hmem
          have hrec := ih (i + 1) _ i (some e) p hmem'
          have hlb := fallback_call_pos_lb h tees nf cs (i + 1)
            (pipeFn c i vals).1 i (some e) p none hmem'
          refine ⟨hrec.1, hrec.2.1, ?_⟩
          intro j r hj
          rcases List.mem_cons.mp hj with heq | hj
          · cases heq; omega
          · rcases List.mem_append.mp hj with hj | hj
            · exact absurd hj (call_not_mem_teesAndFeed _ _ _ _ _ _)
            · exact hrec.2.2 j r hj
        · rcases hth : h te with _ | e3
          · simp only [fallbackFromT, hpr, hh, htf, hth] at hmem ⊢
            have hmem' : Ev.call p none ∈
                (fallbackFromT h tees nf cs (i + 1) (pipeFn c i vals).1 i
                  (some e)).2.2 := by
              rcases List.mem_cons.mp hmem with heq | hmem
              · cases heq
              · rcases List.mem_append.mp hmem with hmem | hmem
                · exact absurd hmem (call_not_mem_teesAndFeed _ _ _ _ _ _)
                · exact hmem
            have hrec := ih (i + 1) _ i (some e) p hmem'
            have hlb := fallback_call_pos_lb h tees nf cs (i + 1)
              (pipeFn c i vals).1 i (some e) p none hmem'
            refine ⟨hrec.1, hrec.2.1, ?_⟩
            intro j r hj
            rcases List.mem_cons.mp hj with heq | hj
            · cases heq; omega
            · rcases List.mem_append.mp hj with hj | hj
              · exact absurd hj (call_not_mem_teesAndFeed _ _ _ _ _ _)
              · exact hrec.2.2 j r hj
          · simp only [fallbackFromT, hpr, hh, htf, hth] at hmem
            rcases List.mem_cons.mp hmem with heq | hmem
            · cases heq
            · exact absurd hmem (call_not_mem_teesAndFeed _ _ _ _ _ _)
      · simp only [fallbackFromT, hpr, hh] at hmem
        rcases List.mem_cons.mp hmem with heq | hmem
        · cases heq
        · simp at hmem

/-- C5: in Fallback mode, if the run invokes the call at some position
`p` and that call returns no error, then `Fallback()` returns `(p, nil)`
and no position after `p` is ever invoked, whatever the later positions
would do. -/
theorem c5_fallback_first_success (q : Queue) (p : Nat)
    (hp : Ev.call p none ∈ q.FallbackT.2.2) :
    q.FallbackT.1 = p ∧ q.FallbackT.2.1 = none ∧
    ∀ j r, Ev.call j r ∈ q.FallbackT.2.2 → j ≤ p :=
  fallback_stops_at_success (q.errHandler.getD IGNORE) q.tees q.nfeeds
    q.functions 0 q.startValues 0 none p hp

def cFail : call :=
  { outTypes := [Ty.err], behavior := fun _ => .returns [.nilable (some 5)] }

def cOk : call :=
  { behavior := fun _ => .returns [] }

def qC5 : Queue := { functions := [cFail, cOk, cFail] }

theorem c5_witness :
    qC5.FallbackT.1 = 1 ∧ qC5.FallbackT.2.1 = none ∧
    ∀ j r, Ev.call j r ∈ qC5.FallbackT.2.2 → j ≤ 1 :=
  c5_fallback_first_success qC5 1 (by decide)

lemma run_call_pos_lb (h : ErrHandler) (tees : Nat → List call)
    (nf : Nat → Nat) :
    ∀ (cs : List call) (i : Nat) (vals : List RVal) (j : Nat)
      (r : Option QError),
      Ev.call j r ∈ (runFromT h tees nf cs i vals).2 → i ≤ j := by
  intro cs
  induction cs with
  | nil => intro i vals j r hmem; simp [runFromT] at hmem
  | cons c cs ih =>
    intro i vals j r hmem
    rcases hpr : (pipeFn c i vals).2 with _ | e
    · rcases htf : (runTeesAndFeedT tees nf i (pipeFn c i vals).1).1 with _ | te
      · simp only [runFromT, hpr, htf] at hmem
        rcases List.mem_cons.mp hmem with heq | hmem
        · cases heq; omega
        · rcases List.mem_append.mp hmem with hmem | hmem
          · exact absurd hmem (call_not_mem_teesAndFeed _ _ _ _ _ _)
          · have := ih (i + 1) _ j r hmem
            omega
      · rcases hth : h te with _ | e3
        · simp only [runFromT, hpr, htf, hth] at hmem
          rcases List.mem_cons.mp hmem with heq | hmem
          · cases heq; omega
          · rcases List.mem_append.mp hmem with hmem | hmem
            · exact absurd hmem (call_not_mem_teesAndFeed _ _ _ _ _ _)
            · have := ih (i + 1) _ j r hmem
              omega
        · simp only [runFromT, hpr, htf, hth] at hmem
          rcases List.mem_cons.mp hmem with heq | hmem
          · cases heq; omega
          · exact absurd hmem (call_not_mem_teesAndFeed _ _ _ _ _ _)
    · rcases hh : h e with _ | e2
      · rcases htf : (runTeesAndFeedT tees nf i (pipeFn c i vals).1).1 with _ | te
        · simp only [runFromT, hpr, hh, htf] at hmem
          rcases List.mem_cons.mp hmem with heq | hmem
          · cases heq; omega
          · rcases List.mem_append.mp hmem with hmem | hmem
            · exact absurd hmem (call_not_mem_teesAndFeed _ _ _ _ _ _)
            · have := ih (i + 1) _ j r hmem
              omega
        · rcases hth : h te with _ | e3
          · simp only [runFromT, hpr, hh, htf, hth] at hmem
            rcases List.mem_cons.mp hmem with heq | hmem
            · cases heq; omega
            · rcases List.mem_append.mp hmem with hmem | hmem
              · exact absurd hmem (call_not_mem_teesAndFeed _ _ _ _ _ _)
              · have := ih (i + 1) _ j r hmem
                omega
          · simp only [runFromT, hpr, hh, htf, hth] at hmem
            rcases List.mem_cons.mp hmem with heq | hmem
            · cases heq; omega
            · exact absurd hmem (call_not_mem_teesAndFeed _ _ _ _ _ _)
      · simp only [runFromT, hpr, hh] at hmem
        rcases List.mem_cons.mp hmem with heq | hmem
        · cases heq; omega
        · simp at hmem

lemma run_stop_first_error (tees : Nat → List call) (nf : Nat → Nat) :
    ∀ (cs : List call) (i : Nat) (vals : List RVal) (j : Nat) (e : QError),
      Ev.call j (some e) ∈ (runFromT STOP tees nf cs i vals).2 →
      (runFromT STOP tees nf cs i vals).1 = some e ∧
      ∀ k r, Ev.call k r ∈ (runFromT STOP tees nf cs i vals).2 → k ≤ j := by
  intro cs
  induction cs with
  | nil => intro i vals j e hmem; simp [runFromT] at hmem
  | cons c cs ih =>
    intro i vals j e hmem
    rcases hpr : (pipeFn c i vals).2 with _ | e0
    · rcases htf : (runTeesAndFeedT tees nf i (pipeFn c i vals).1).1 with _ | te
      · simp only [runFromT, hpr, htf, STOP] at hmem ⊢
        have hmem' : Ev.call j (some e) ∈
            (runFromT STOP tees nf cs (i + 1) (pipeFn c i vals).1).2 := by
          rcases List.mem_cons.mp hmem with heq | hmem
          · cases heq
          · rcases List.mem_append.mp hmem with hmem | hmem
            · exact absurd hmem (call_not_mem_teesAndFeed _ _ _ _ _ _)
            · exact hmem
        have hrec := ih (i + 1) _ j e hmem'
        have hlb := run_call_pos_lb STOP tees nf cs (i + 1)
          (pipeFn c i vals).1 j (some e) hmem'
        refine ⟨hrec.1, ?_⟩
        intro k r hk
        rcases List.mem_cons.mp hk with heq | hk
        · cases heq; omega
        · rcases List.mem_append.mp hk with hk | hk
          · exact absurd hk (call_not_mem_teesAndFeed _ _ _ _ _ _)
          · exact hrec.2 k r hk
      · simp only [runFromT, hpr, htf, STOP] at hmem
        rcases List.mem_cons.mp hmem with heq | hmem
        · cases heq
        · exact absurd hmem (call_not_mem_teesAndFeed _ _ _ _ _ _)
    · simp only [runFromT, hpr, STOP] at hmem ⊢
      have hj : j = i ∧ e = e0 := by
        rcases List.mem_cons.mp hmem with heq | hmem
        · cases heq; exact ⟨rfl, rfl⟩
        · simp at hmem
      rcases hj with ⟨hj, he⟩
      subst hj; subst he
      refine ⟨rfl, ?_⟩
      intro k r hk
      rcases List.mem_cons.mp hk with heq | hk
      · cases heq; omega
      · simp at hk

lemma fallback_first_call_ev (h : ErrHandler) (tees : Nat → List call)
    (nf : Nat → Nat) (cs : List call) (i : Nat) (vals : List RVal)
    (lp : Nat) (le : Option QError) (hcs : cs ≠ []) :
    ∃ r, Ev.call i r ∈ (fallbackFromT h tees nf cs i vals lp le).2.2 := by
  rcases cs with _ | ⟨c, cs⟩
  · exact absurd rfl hcs
  rcases hpr : (pipeFn c i vals).2 with _ | e
  · exact ⟨none, by simp [fallbackFromT, hpr]⟩
  · rcases hh : h e with _ | e2
    · rcases htf : (runTeesAndFeedT tees nf i (pipeFn c i vals).1).1 with _ | te
      · exact ⟨some e, by simp [fallbackFromT, hpr, hh, htf]⟩
      · rcases hth : h te with _ | e3
        · exact ⟨some e, by simp [fallbackFromT, hpr, hh, htf, hth]⟩
        · exact ⟨some e, by simp [fallbackFromT, hpr, hh, htf, hth]⟩
    · exact ⟨some e, by simp [fallbackFromT, hpr, hh]⟩

lemma fallback_ignore_continues (h : ErrHandler) (tees : Nat → List call)
    (nf : Nat → Nat) (hsw : ∀ e, h e = none) :
    ∀ (cs : List call) (i : Nat) (vals : List RVal) (lp : Nat)
      (le : Option QError) (j : Nat) (e : QError),
      Ev.call j (some e) ∈ (fallbackFromT h tees nf cs i vals lp le).2.2 →
      j + 1 < i + cs.length →
      ∃ r, Ev.call (j + 1) r ∈ (fallbackFromT h tees nf cs i vals lp le).2.2 := by
  intro cs
  induction cs with
  | nil => intro i vals lp le j e hmem _; simp [fallbackFromT] at hmem
  | cons c cs ih =>
    intro i vals lp le j e hmem hlt
    rcases hpr : (pipeFn c i vals).2 with _ | e0
    · simp only [fallbackFromT, hpr] at hmem
      rcases List.mem_cons.mp hmem with heq | hmem
      · cases heq
      · rcases List.eq_of_mem_replicate hmem with h'
        exact Ev.noConfusion h'
    · have hcont :
          (fallbackFromT h tees nf (c :: cs) i vals lp le).2.2
            = Ev.call i (some e0)
                :: (runTeesAndFeedT tees nf i (pipeFn c i vals).1).2
              ++ (fallbackFromT h tees nf cs (i + 1) (pipeFn c i vals).1 i
                  (some e0)).2.2 := by
        rcases htf : (runTeesAndFeedT tees nf i (pipeFn c i vals).1).1 with _ | te
        · simp [fallbackFromT, hpr, hsw e0, htf]
        · simp [fallbackFromT, hpr, hsw e0, htf, hsw te]
      rw [hcont] at hmem ⊢
      rcases List.mem_cons.mp hmem with heq | hmem
      · cases heq
        have hne : cs ≠ [] := by
          intro h0
          subst h0
          simp only [List.length_cons, List.length_nil] at hlt
          omega
        rcases fallback_first_call_ev h tees nf cs (i + 1)
            (pipeFn c i vals).1 i (some e) hne with ⟨r, hr⟩
        exact ⟨r, by simp [List.mem_cons, List.mem_append, hr]⟩
      · rcases List.mem_append.mp hmem with hmem | hmem
        · exact absurd hmem (call_not_mem_teesAndFeed _ _ _ _ _ _)
        · have hlt' : j + 1 < (i + 1) + cs.length := by
            simp at hlt; omega
          rcases ih (i + 1) _ i (some e0) j e hmem hlt' with ⟨r, hr⟩
          exact ⟨r, by simp [List.mem_cons, List.mem_append, hr]⟩

/-- C6: with no error handler set, `Run()` behaves exactly as with the
STOP policy and `Fallback()` exactly as with the IGNORE policy; STOP
returns every error unchanged (so the first non-nil step error is
returned and nothing later executes), IGNORE swallows every error (so a
fallback run continues past any step error that is not at the last
position). -/
theorem c6_default_handlers :
    (∀ q : Queue, Queue.RunT { q with errHandler := none }
        = Queue.RunT { q with errHandler := some STOP }) ∧
    (∀ q : Queue, Queue.FallbackT { q with errHandler := none }
        = Queue.FallbackT { q with errHandler := some IGNORE }) ∧
    (∀ e, STOP e = some e) ∧
    (∀ e, IGNORE e = none) ∧
    (∀ (q : Queue) (i : Nat) (e : QError), q.errHandler = none →
      Ev.call i (some e) ∈ q.RunT.2 →
      q.RunT.1 = some e ∧ ∀ j r, Ev.call j r ∈ q.RunT.2 → j ≤ i) ∧
    (∀ (q : Queue) (i : Nat) (e : QError), q.errHandler = none →
      Ev.call i (some e) ∈ q.FallbackT.2.2 → i + 1 < q.functions.length →
      ∃ r, Ev.call (i + 1) r ∈ q.FallbackT.2.2) := by
  refine ⟨fun q => rfl, fun q => rfl, fun e => rfl, fun e => rfl, ?_, ?_⟩
  · intro q i e hq hmem
    have hgd : q.errHandler.getD STOP = STOP := by rw [hq]; rfl
    unfold Queue.RunT at hmem ⊢
    rw [hgd] at hmem ⊢
    exact run_stop_first_error q.tees q.nfeeds q.functions 0 q.startValues i e hmem
  · intro q i e hq hmem hlt
    have hgd : q.errHandler.getD IGNORE = IGNORE := by rw [hq]; rfl
    unfold Queue.FallbackT at hmem ⊢
    rw [hgd] at hmem ⊢
    exact fallback_ignore_continues IGNORE q.tees q.nfeeds (fun _ => rfl)
      q.functions 0 q.startValues 0 none i e hmem (by simpa using hlt)

theorem c6_witness :
    ((Queue.mk [cFail, cOk] none [] (fun _ => []) (fun _ => 0)).RunT.1
        = some (QError.step 5) ∧
      ∀ j r, Ev.call j r ∈
        (Queue.mk [cFail, cOk] none [] (fun _ => []) (fun _ => 0)).RunT.2 →
        j ≤ 0) ∧
    (∃ r, Ev.call 1 r ∈ qC5.FallbackT.2.2) := by
  refine ⟨?_, ?_⟩
  · exact c6_default_handlers.2.2.2.2.1
      (Queue.mk [cFail, cOk] none [] (fun _ => []) (fun _ => 0)) 0
      (QError.step 5) rfl (by decide)
  · exact c6_default_handlers.2.2.2.2.2 qC5 0 (QError.step 5) rfl
      (by decide) (by decide)

/-- The original step error of the last position of a queue segment, as
computed by threading each call's (stripped) return values into the
next call, the way both runner loops do. -/
def lastStepErr : List call → Nat → List RVal → Option QError
  | [], _, _ => none
  | [c], i, vals => (pipeFn c i vals).2
  | c :: cs, i, vals => lastStepErr cs (i + 1) (pipeFn c i vals).1

lemma lastStepErr_isSome :
    ∀ (cs : List call) (i : Nat) (vals : List RVal), cs ≠ [] →
      (∀ c ∈ cs, ∀ (k : Nat) (v : List RVal), ((pipeFn c k v).2).isSome = true) →
      (lastStepErr cs i vals).isSome = true := by
  intro cs
  induction cs with
  | nil => intro i vals hne _; exact absurd rfl hne
  | cons c cs ih =>
    intro i vals _ herr
    rcases cs with _ | ⟨c2, cs⟩
    · simpa [lastStepErr] using herr c (by simp) i vals
    · simp only [lastStepErr]
      exact ih (i + 1) _ (by simp) fun d hd => herr d (by simp [hd])

lemma fallback_all_swallowed (h : ErrHandler) (tees : Nat → List call)
    (nf : Nat → Nat) (hsw : ∀ e, h e = none) :
    ∀ (cs : List call) (i : Nat) (vals : List RVal) (lp : Nat)
      (le : Option QError), cs ≠ [] →
      (∀ c ∈ cs, ∀ (k : Nat) (v : List RVal), ((pipeFn c k v).2).isSome = true) →
      (fallbackFromT h tees nf cs i vals lp le).1 = i + cs.length - 1 ∧
      (fallbackFromT h tees nf cs i vals lp le).2.1 = lastStepErr cs i vals := by
  intro cs
  induction cs with
  | nil => intro i vals lp le hne _; exact absurd rfl hne
  | cons c cs ih =>
    intro i vals lp le _ herr
    rcases hps : (pipeFn c i vals).2 with _ | e
    · have := herr c (by simp) i vals
      rw [hps] at this
      simp at this
    have hcont :
        fallbackFromT h tees nf (c :: cs) i vals lp le
          = ((fallbackFromT h tees nf cs (i + 1) (pipeFn c i vals).1 i
                (some e)).1,
             (fallbackFromT h tees nf cs (i + 1) (pipeFn c i vals).1 i
                (some e)).2.1,
             Ev.call i (some e)
               :: (runTeesAndFeedT tees nf i (pipeFn c i vals).1).2
               ++ (fallbackFromT h tees nf cs (i + 1) (pipeFn c i vals).1 i
                   (some e)).2.2) := by
      rcases htf : (runTeesAndFeedT tees nf i (pipeFn c i vals).1).1 with _ | te
      · simp [fallbackFromT, hps, hsw e, htf]
      · simp [fallbackFromT, hps, hsw e, htf, hsw te]
    rcases cs with _ | ⟨c2, cs⟩
    · rw [hcont]
      simp [fallbackFromT, lastStepErr, hps]
    · have hrec := ih (i + 1) (pipeFn c i vals).1 i (some e) (by simp)
        fun d hd => herr d (by simp [hd])
      rw [hcont]
      simp only [lastStepErr]
      refine ⟨?_, hrec.2⟩
      rw [hrec.1]
      simp only [List.length_cons]
      omega

/-- C3: in Fallback mode, when every position's call errors and the
error handler swallows everything (as the default IGNORE does),
`Fallback()` returns the index of the last position together with that
last step's original (non-nil) error, even though the handler swallowed
it. -/
theorem c3_fallback_exhaustion (q : Queue)
    (hne : q.functions ≠ [])
    (herr : ∀ c ∈ q.functions, ∀ (k : Nat) (v : List RVal),
      ((pipeFn c k v).2).isSome = true)
    (hsw : ∀ e, q.errHandler.getD IGNORE e = none) :
    q.FallbackT.1 = q.functions.length - 1 ∧
    q.FallbackT.2.1 = lastStepErr q.functions 0 q.startValues ∧
    (lastStepErr q.functions 0 q.startValues).isSome = true := by
  have hmain := fallback_all_swallowed (q.errHandler.getD IGNORE) q.tees
    q.nfeeds hsw q.functions 0 q.startValues 0 none hne herr
  exact ⟨by simpa using hmain.1, hmain.2,
    lastStepErr_isSome q.functions 0 q.startValues hne herr⟩

def qC3 : Queue := { functions := [cFail, cFail] }

theorem c3_witness :
    qC3.FallbackT.1 = 1 ∧
    qC3.FallbackT.2.1 = some (QError.step 5) ∧
    ((some (QError.step 5) : Option QError)).isSome = true := by
  have h := c3_fallback_exhaustion qC3 (by simp [qC3])
    (by
      intro c hc k v
      simp only [qC3, List.mem_cons, List.not_mem_nil, or_false] at hc
      rcases hc with rfl | rfl <;> rfl)
    (fun e => rfl)
  have hlast : lastStepErr qC3.functions 0 qC3.startValues
      = some (QError.step 5) := rfl
  rw [hlast] at h
  simpa [qC3] using h

def tee0 : call := { behavior := fun _ => .returns [] }

def qC4 : Queue :=
  { functions := [cFail, cOk],
    tees := fun p => if p = 0 then [tee0] else [],
    nfeeds := fun p => if p = 0 then 1 else 0 }

/-- C4 counterexample: the claim says a position whose error is
swallowed and passed over has neither its tees nor its feeds invoked.
In `qC4`, position 0 fails, its error is swallowed by the default IGNORE
handler, and position 1 is the position that ultimately succeeds
(`Fallback()` returns `(1, nil)`); yet the tee and the feed registered
at position 0 are both invoked during the run. -/
theorem c4_counterexample :
    Ev.tee 0 0 ∈ qC4.FallbackT.2.2 ∧
    Ev.feed 0 ∈ qC4.FallbackT.2.2 ∧
    qC4.FallbackT.1 = 1 ∧
    qC4.FallbackT.2.1 = none ∧
    Ev.call 1 none ∈ qC4.FallbackT.2.2 := by decide

lemma tee_zero_mem (ts : List call) (pos : Nat) (vals : List RVal)
    (hne : ts ≠ []) : Ev.tee pos 0 ∈ (runTees ts pos 0 vals).2 := by
  rcases ts with _ | ⟨t, ts⟩
  · exact absurd rfl hne
  rcases hpr : (pipeFn t (pos * 100) vals).2 with _ | e <;>
    simp [runTees, hpr]

/-- C4 amended: in Fallback mode, a position whose step error the error
handler swallows has its feeds set and its tees invoked (in order, up to
the first tee error) before the run moves on; the position that succeeds
has its feeds set but its tees are not invoked; a position whose step
error the handler returns non-nil has neither feeds nor tees invoked. -/
theorem c4_fallback_branch_feed_amended (h : ErrHandler)
    (tees : Nat → List call) (nf : Nat → Nat) (c : call) (cs : List call)
    (i : Nat) (vals : List RVal) (lp : Nat) (le : Option QError) :
    ((pipeFn c i vals).2 = none →
      fallbackFromT h tees nf (c :: cs) i vals lp le
        = (i, none, Ev.call i none :: List.replicate (nf i) (Ev.feed i))) ∧
    (∀ e e2, (pipeFn c i vals).2 = some e → h e = some e2 →
      fallbackFromT h tees nf (c :: cs) i vals lp le
        = (i, some e2, [Ev.call i (some e)])) ∧
    (∀ e, (pipeFn c i vals).2 = some e → h e = none →
      ∃ rest,
        (fallbackFromT h tees nf (c :: cs) i vals lp le).2.2
          = Ev.call i (some e)
              :: (List.replicate (nf i) (Ev.feed i)
                ++ (runTees (tees i) i 0 (pipeFn c i vals).1).2
                ++ rest) ∧
        (tees i ≠ [] →
          Ev.tee i 0 ∈ (runTees (tees i) i 0 (pipeFn c i vals).1).2)) := by
  refine ⟨?_, ?_, ?_⟩
  · intro hpr
    simp [fallbackFromT, hpr]
  · intro e e2 hpr hh
    simp [fallbackFromT, hpr, hh]
  · intro e hpr hh
    rcases htf : (runTees (tees i) i 0 (pipeFn c i vals).1).1 with _ | te
    · refine ⟨(fallbackFromT h tees nf cs (i + 1) (pipeFn c i vals).1 i
        (some e)).2.2, ?_, fun hne => tee_zero_mem _ _ _ hne⟩
      simp [fallbackFromT, hpr, hh, htf, runTeesAndFeedT, List.append_assoc]
    · rcases hth : h te with _ | e3
      · refine ⟨(fallbackFromT h tees nf cs (i + 1) (pipeFn c i vals).1 i
          (some e)).2.2, ?_, fun hne => tee_zero_mem _ _ _ hne⟩
        simp [fallbackFromT, hpr, hh, htf, hth, runTeesAndFeedT,
          List.append_assoc]
      · refine ⟨[], ?_, fun hne => tee_zero_mem _ _ _ hne⟩
        simp [fallbackFromT, hpr, hh, htf, hth, runTeesAndFeedT]

theorem c4_amended_witness :
    ∃ rest,
      (fallbackFromT IGNORE qC4.tees qC4.nfeeds (cFail :: [cOk]) 0 [] 0
          none).2.2
        = Ev.call 0 (some (QError.step 5))
            :: (List.replicate (qC4.nfeeds 0) (Ev.feed 0)
              ++ (runTees (qC4.tees 0) 0 0 (pipeFn cFail 0 []).1).2
              ++ rest) ∧
      (qC4.tees 0 ≠ [] →
        Ev.tee 0 0 ∈ (runTees (qC4.tees 0) 0 0 (pipeFn cFail 0 []).1).2) :=
  (c4_fallback_branch_feed_amended IGNORE qC4.tees qC4.nfeeds cFail [cOk]
    0 [] 0 none).2.2 (QError.step 5) rfl rfl

/-! ### Validation lemmas -/

/-- What validation reads off an argument: PIPE or the literal's type. -/
def argSig : Arg → Option Ty
  | .pipe => none
  | .lit t _ => some t

/-- Two calls with the same validation-relevant signature data; their
runtime behaviours and literal argument values may differ freely. -/
def sigEq (c c' : call) : Prop :=
  c.isFunc = c'.isFunc ∧ c.inTypes = c'.inTypes ∧ c.variadic = c'.variadic ∧
  c.outTypes = c'.outTypes ∧ c.name = c'.name ∧ c.sig = c'.sig ∧
  c.arguments.map argSig = c'.arguments.map argSig

/-- The output types threaded through validation by a queue segment
(position-independent reading of `validateFn`'s first component). -/
def typesThrough (asg : Ty → Ty → Bool) : List call → List Ty → List Ty
  | [], t => t
  | c :: cs, t => typesThrough asg cs (validateFn asg c 0 t).1

lemma validateFn_fst_pos (asg : Ty → Ty → Bool) (c : call) (piped : List Ty)
    (i j : Nat) : (validateFn asg c i piped).1 = (validateFn asg c j piped).1 := by
  by_cases hf : c.isFunc = false
  · simp [validateFn, hf]
  · rcases hva : validateArgs asg c.inTypes c.variadic
      (resolveArgTypes c.arguments piped) with _ | ve <;>
      simp [validateFn, hf, hva]

lemma validateFn_err_shape (asg : Ty → Ty → Bool) (c : call) (i : Nat)
    (piped : List Ty) (e : QError)
    (he : (validateFn asg c i piped).2 = some e) :
    (c.isFunc = false ∧ e = .invalidFunc i c.name c.sig) ∨
    (c.isFunc = true ∧ ∃ ve,
      validateArgs asg c.inTypes c.variadic (resolveArgTypes c.arguments piped)
        = some ve ∧
      e = .invalidArgument i c.name c.sig ve) := by
  by_cases hf : c.isFunc = false
  · simp only [validateFn, hf, if_true, Option.some.injEq] at he
    exact Or.inl ⟨hf, he.symm⟩
  · have hft : c.isFunc = true := eq_true_of_ne_false hf
    rcases hva : validateArgs asg c.inTypes c.variadic
        (resolveArgTypes c.arguments piped) with _ | ve
    · exfalso
      by_cases hz : c.outTypes.length = 0 <;>
        simp [validateFn, hft, hva, hz] at he
    · simp only [validateFn, hft, hva, if_true, if_false, Option.some.injEq,
        Bool.true_eq_false, ite_false] at he
      exact Or.inr ⟨hft, ve, rfl, he.symm⟩

lemma resolveArgTypes_sig (args args' : List Arg) (piped : List Ty)
    (hs : args.map argSig = args'.map argSig) :
    resolveArgTypes args piped = resolveArgTypes args' piped := by
  have key : ∀ (as : List Arg) (acc : List Ty),
      List.foldl
        (fun all p =>
          match p with
          | Arg.pipe => all ++ piped
          | Arg.lit t _ => all ++ [t])
        acc as
        = List.foldl
          (fun all o =>
            match o with
            | none => all ++ piped
            | some t => all ++ [t])
          acc (as.map argSig) := by
    intro as
    induction as with
    | nil => intro acc; rfl
    | cons a as ih => intro acc; cases a <;> simp [argSig, ih]
  unfold resolveArgTypes
  rw [key, key, hs]

lemma validateFn_sigEq (asg : Ty → Ty → Bool) (c c' : call) (i : Nat)
    (piped : List Ty) (hs : sigEq c c') :
    validateFn asg c i piped = validateFn asg c' i piped := by
  obtain ⟨h1, h2, h3, h4, h5, h6, h7⟩ := hs
  unfold validateFn
  rw [h1, h2, h3, h4, h5, h6, resolveArgTypes_sig _ _ piped h7]

lemma checkFrom_sigEq (asg : Ty → Ty → Bool) :
    ∀ (cs cs' : List call) (i : Nat) (piped : List Ty),
      List.Forall₂ sigEq cs cs' →
      checkFrom asg cs i piped = checkFrom asg cs' i piped := by
  intro cs cs' i piped hall
  induction hall generalizing i piped with
  | nil => rfl
  | cons hcc hrest ih =>
    rw [show checkFrom asg _ i piped
        = match validateFn asg _ i piped with
          | (_, some e) => some e
          | (tys, none) => checkFrom asg _ (i + 1) tys
      from rfl]
    rw [validateFn_sigEq asg _ _ i piped hcc]
    rcases hv : validateFn asg _ i piped with ⟨tys, oe⟩
    cases oe <;> simp [checkFrom, hv, ih]

lemma checkFrom_first_err (asg : Ty → Ty → Bool) :
    ∀ (cs : List call) (i : Nat) (piped : List Ty) (e : QError),
      checkFrom asg cs i piped = some e →
      ∃ pre c suf, cs = pre ++ c :: suf ∧
        checkFrom asg pre i piped = none ∧
        (validateFn asg c (i + pre.length) (typesThrough asg pre piped)).2
          = some e := by
  intro cs
  induction cs with
  | nil => intro i piped e hc; simp [checkFrom] at hc
  | cons c cs ih =>
    intro i piped e hc
    rcases hv : validateFn asg c i piped with ⟨tys, oe⟩
    cases oe with
    | some e' =>
      simp only [checkFrom, hv] at hc
      refine ⟨[], c, cs, by simp, rfl, ?_⟩
      simpa [typesThrough, hv] using hc
    | none =>
      simp only [checkFrom, hv] at hc
      rcases ih (i + 1) tys e hc with ⟨pre, d, suf, hsplit, hok, herr⟩
      refine ⟨c :: pre, d, suf, by simp [hsplit], ?_, ?_⟩
      · simp [checkFrom, hv, hok]
      · have hpos : i + (c :: pre).length = (i + 1) + pre.length := by
          simp [List.length_cons]; omega
        have hty : typesThrough asg (c :: pre) piped
            = typesThrough asg pre tys := by
          have h0 : (validateFn asg c 0 piped).1 = tys := by
            rw [validateFn_fst_pos asg c piped 0 i, hv]
          simp [typesThrough, h0]
        rw [hpos, hty]
        exact herr

/-- C8: `Check()` walks the positions in ascending order and returns the
first structural error - `InvalidFunc` when the value at a position is
not a function, `InvalidArgument` when the argument shape mismatches -
identifying that position and name; it never invokes a queued callable
(its result is unchanged under any change of the calls' behaviours and
literal argument values); and on a malformed queue `CheckAndRun()` /
`CheckAndFallback()` return that structural error with an empty trace
(no step executes). -/
theorem c8_check_short_circuit :
    (∀ (asg : Ty → Ty → Bool) (q : Queue) (e : QError),
      Check asg q = some e →
      ∃ pre c suf, q.functions = pre ++ c :: suf ∧
        checkFrom asg pre 0 [] = none ∧
        (validateFn asg c pre.length (typesThrough asg pre [])).2 = some e ∧
        ((c.isFunc = false ∧ e = .invalidFunc pre.length c.name c.sig) ∨
         (c.isFunc = true ∧
           ∃ ve, e = .invalidArgument pre.length c.name c.sig ve))) ∧
    (∀ (asg : Ty → Ty → Bool) (q q' : Queue),
      List.Forall₂ sigEq q.functions q'.functions →
      Check asg q = Check asg q') ∧
    (∀ (asg : Ty → Ty → Bool) (q : Queue) (e : QError),
      Check asg q = some e →
      CheckAndRunT asg q = (some e, []) ∧
      CheckAndFallbackT asg q = (0, some e, [])) := by
  refine ⟨?_, ?_, ?_⟩
  · intro asg q e hc
    rcases checkFrom_first_err asg q.functions 0 [] e hc with
      ⟨pre, c, suf, hsplit, hok, herr⟩
    rw [show (0 : Nat) + pre.length = pre.length from by omega] at herr
    refine ⟨pre, c, suf, hsplit, hok, herr, ?_⟩
    rcases validateFn_err_shape asg c pre.length (typesThrough asg pre []) e
        herr with h | ⟨hf, ve, _, hve⟩
    · exact Or.inl h
    · exact Or.inr ⟨hf, ve, hve⟩
  · intro asg q q' hall
    unfold Check
    exact checkFrom_sigEq asg q.functions q'.functions 0 [] hall
  · intro asg q e hc
    constructor
    · unfold CheckAndRunT
      rw [hc]
    · unfold CheckAndFallbackT
      rw [hc]

def qBad : Queue := { functions := [{ isFunc := false, sig := "int" }] }

theorem c8_witness :
    CheckAndRunT (fun a b => a == b) qBad
      = (some (QError.invalidFunc 0 "" "int"), []) ∧
    CheckAndFallbackT (fun a b => a == b) qBad
      = (0, some (QError.invalidFunc 0 "" "int"), []) :=
  c8_check_short_circuit.2.2 (fun a b => a == b) qBad
    (QError.invalidFunc 0 "" "int") rfl

lemma validateNums_var_fst (inTys args : List Ty) :
    (validateNums inTys true args).1 = inTys.length := by
  simp only [validateNums]
  split_ifs <;> rfl

lemma validateNums_var_diff (inTys args : List Ty) :
    (validateNums inTys true args).2.2.1
      = (args.length : Int) - inTys.length := by
  simp only [validateNums]
  split_ifs <;> rfl

lemma validateNums_var_none_iff (inTys args : List Ty) :
    (validateNums inTys true args).2.2.2 = none ↔
      inTys.length ≤ args.length + 1 := by
  simp only [validateNums]
  split_ifs with h1 h2 h3
  · simp; omega
  · simp at h2
  · simp; omega
  · simp; omega

lemma validateNums_var_some_shape (inTys args : List Ty) (ve : VErr)
    (h : (validateNums inTys true args).2.2.2 = some ve) :
    ∃ w g b, ve = .numErr w g b := by
  simp only [validateNums] at h
  split_ifs at h with h1 h2 h3
  · exact ⟨inTys.length, args.length, false, (Option.some.inj h).symm⟩
  · exact ⟨inTys.length, args.length, true, (Option.some.inj h).symm⟩

lemma fixedLoop_none_iff (asg : Ty → Ty → Bool) (inTys args : List Ty) :
    ∀ (fuel i : Nat),
      fixedLoop asg inTys args i fuel = none ↔
      ∀ k, i ≤ k → k < i + fuel →
        asg (args.getD k Ty.err) (inTys.getD k Ty.err) = true := by
  intro fuel
  induction fuel with
  | zero =>
    intro i
    constructor
    · intro _ k h1 h2; omega
    · intro _; rfl
  | succ fuel ih =>
    intro i
    by_cases hA : asg (args.getD i Ty.err) (inTys.getD i Ty.err) = true
    · rw [show fixedLoop asg inTys args i (fuel + 1)
          = fixedLoop asg inTys args (i + 1) fuel from by
        simp only [fixedLoop]; rw [if_pos hA]]
      rw [ih (i + 1)]
      constructor
      · intro hall k h1 h2
        rcases Nat.eq_or_lt_of_le h1 with heq | hlt
        · rw [← heq]; exact hA
        · exact hall k hlt (by omega)
      · intro hR k h1 h2
        exact hR k (by omega) (by omega)
    · rw [show fixedLoop asg inTys args i (fuel + 1)
          = some (.argErr (i + 1) (args.getD i Ty.err) (inTys.getD i Ty.err))
          from by simp only [fixedLoop]; rw [if_neg hA]]
      constructor
      · intro h; exact Option.noConfusion h
      · intro hR
        exact absurd (hR i (le_refl i) (by omega)) hA

lemma fixedLoop_some (asg : Ty → Ty → Bool) (inTys args : List Ty) :
    ∀ (fuel i : Nat) (ve : VErr),
      fixedLoop asg inTys args i fuel = some ve →
      ∃ k, i ≤ k ∧ k < i + fuel ∧
        ve = .argErr (k + 1) (args.getD k Ty.err) (inTys.getD k Ty.err) ∧
        asg (args.getD k Ty.err) (inTys.getD k Ty.err) = false := by
  intro fuel
  induction fuel with
  | zero => intro i ve h; exact Option.noConfusion h
  | succ fuel ih =>
    intro i ve h
    by_cases hA : asg (args.getD i Ty.err) (inTys.getD i Ty.err) = true
    · rw [show fixedLoop asg inTys args i (fuel + 1)
          = fixedLoop asg inTys args (i + 1) fuel from by
        simp only [fixedLoop]; rw [if_pos hA]] at h
      rcases ih (i + 1) ve h with ⟨k, h1, h2, h3, h4⟩
      exact ⟨k, by omega, by omega, h3, h4⟩
    · rw [show fixedLoop asg inTys args i (fuel + 1)
          = some (.argErr (i + 1) (args.getD i Ty.err) (inTys.getD i Ty.err))
          from by simp only [fixedLoop]; rw [if_neg hA]] at h
      injection h with h
      exact ⟨i, le_refl i, by omega, h.symm, Bool.eq_false_iff.mpr hA⟩

lemma variLoop_none_iff (asg : Ty → Ty → Bool) (shd : Ty) (args : List Ty) :
    ∀ (fuel j : Nat),
      variLoop asg shd args j fuel = none ↔
      ∀ k, j ≤ k → k < j + fuel → asg (args.getD k Ty.err) shd = true := by
  intro fuel
  induction fuel with
  | zero =>
    intro j
    constructor
    · intro _ k h1 h2; omega
    · intro _; rfl
  | succ fuel ih =>
    intro j
    by_cases hA : asg (args.getD j Ty.err) shd = true
    · rw [show variLoop asg shd args j (fuel + 1)
          = variLoop asg shd args (j + 1) fuel from by
        simp only [variLoop]; rw [if_pos hA]]
      rw [ih (j + 1)]
      constructor
      · intro hall k h1 h2
        rcases Nat.eq_or_lt_of_le h1 with heq | hlt
        · rw [← heq]; exact hA
        · exact hall k hlt (by omega)
      · intro hR k h1 h2
        exact hR k (by omega) (by omega)
    · rw [show variLoop asg shd args j (fuel + 1)
          = some (.argErr (j + 1) (args.getD j Ty.err) shd) from by
        simp only [variLoop]; rw [if_neg hA]]
      constructor
      · intro h; exact Option.noConfusion h
      · intro hR
        exact absurd (hR j (le_refl j) (by omega)) hA

lemma variLoop_some (asg : Ty → Ty → Bool) (shd : Ty) (args : List Ty) :
    ∀ (fuel j : Nat) (ve : VErr),
      variLoop asg shd args j fuel = some ve →
      ∃ k, j ≤ k ∧ k < j + fuel ∧
        ve = .argErr (k + 1) (args.getD k Ty.err) shd ∧
        asg (args.getD k Ty.err) shd = false := by
  intro fuel
  induction fuel with
  | zero => intro j ve h; exact Option.noConfusion h
  | succ fuel ih =>
    intro j ve h
    by_cases hA : asg (args.getD j Ty.err) shd = true
    · rw [show variLoop asg shd args j (fuel + 1)
          = variLoop asg shd args (j + 1) fuel from by
        simp only [variLoop]; rw [if_pos hA]] at h
      rcases ih (j + 1) ve h with ⟨k, h1, h2, h3, h4⟩
      exact ⟨k, by omega, by omega, h3, h4⟩
    · rw [show variLoop asg shd args j (fuel + 1)
          = some (.argErr (j + 1) (args.getD j Ty.err) shd) from by
        simp only [variLoop]; rw [if_neg hA]] at h
      injection h with h
      exact ⟨j, le_refl j, by omega, h.symm, Bool.eq_false_iff.mpr hA⟩

lemma validateArgs_variadic_unfold (asg : Ty → Ty → Bool)
    (inTys args : List Ty) (hne : ¬ inTys.length = 0)
    (har : inTys.length ≤ args.length + 1) :
    validateArgs asg inTys true args
      = match fixedLoop asg inTys args 0 (inTys.length - 1) with
        | some e => some e
        | none =>
          variLoop asg ((inTys.getD (inTys.length - 1) Ty.err).elem) args
            (inTys.length - 1) (args.length + 1 - inTys.length) := by
  have hn := (validateNums_var_none_iff inTys args).mpr har
  have h1 := validateNums_var_fst inTys args
  have htn : ((validateNums inTys true args).2.2.1 + 1).toNat
      = args.length + 1 - inTys.length := by
    rw [validateNums_var_diff]
    omega
  simp [validateArgs, hn, h1, htn, hne]

/-- C9: for a variadic callable (whose declared final parameter is a
slice with element type `elemT`), validation accepts the argument count
exactly when it is at least the declared parameter count minus one; it
accepts the whole argument list exactly when in addition every
fixed-position argument type is assignable to the corresponding declared
parameter type and every argument at or beyond the variadic position is
assignable to the variadic element type; otherwise the reported error
either complains about the count or names an offending argument (by its
1-based index) whose assignability check failed. -/
theorem c9_variadic_validation (asg : Ty → Ty → Bool) (inTys : List Ty)
    (elemT : Ty) (args : List Ty)
    (hvar : inTys.getLast? = some (Ty.slice elemT)) :
    ((validateNums inTys true args).2.2.2 = none ↔
      inTys.length ≤ args.length + 1) ∧
    (validateArgs asg inTys true args = none ↔
      (inTys.length ≤ args.length + 1 ∧
       (∀ k, k + 1 < inTys.length →
         asg (args.getD k Ty.err) (inTys.getD k Ty.err) = true) ∧
       (∀ k, inTys.length - 1 ≤ k → k < args.length →
         asg (args.getD k Ty.err) elemT = true))) ∧
    (∀ ve, validateArgs asg inTys true args = some ve →
      (∃ w g b, ve = .numErr w g b ∧ args.length + 1 < inTys.length) ∨
      (∃ k sh, ve = .argErr (k + 1) (args.getD k Ty.err) sh ∧
        asg (args.getD k Ty.err) sh = false)) := by
  have hne0 : inTys ≠ [] := by
    intro h0
    rw [h0] at hvar
    exact Option.noConfusion hvar
  have hlen0 : ¬ inTys.length = 0 := fun h0 => hne0 (List.length_eq_zero.mp h0)
  have hgetD : inTys.getD (inTys.length - 1) Ty.err = Ty.slice elemT := by
    rw [List.getD_eq_getElem?_getD, ← List.getLast?_eq_getElem?, hvar]
    rfl
  have helem : (inTys.getD (inTys.length - 1) Ty.err).elem = elemT := by
    rw [hgetD]
    rfl
  refine ⟨validateNums_var_none_iff inTys args, ?_, ?_⟩
  · by_cases har : inTys.length ≤ args.length + 1
    · rw [validateArgs_variadic_unfold asg inTys args hlen0 har, helem]
      rcases hf : fixedLoop asg inTys args 0 (inTys.length - 1) with _ | ve
      · constructor
        · intro hv
          refine ⟨har, ?_, ?_⟩
          · intro k hk
            exact (fixedLoop_none_iff asg inTys args (inTys.length - 1) 0).mp
              hf k (by omega) (by omega)
          · intro k h1 h2
            exact (variLoop_none_iff asg elemT args
              (args.length + 1 - inTys.length) (inTys.length - 1)).mp hv k h1
              (by omega)
        · rintro ⟨_, _, hvari⟩
          exact (variLoop_none_iff asg elemT args
            (args.length + 1 - inTys.length) (inTys.length - 1)).mpr
            fun k h1 h2 => hvari k h1 (by omega)
      · rcases fixedLoop_some asg inTys args (inTys.length - 1) 0 ve hf with
          ⟨k, _, h2, _, h4⟩
        constructor
        · intro h; exact Option.noConfusion h
        · rintro ⟨_, hfix, _⟩
          rw [hfix k (by omega)] at h4
          exact Bool.noConfusion h4
    · rcases hn : (validateNums inTys true args).2.2.2 with _ | ve
      · exact absurd ((validateNums_var_none_iff inTys args).mp hn) har
      · have hva : validateArgs asg inTys true args = some ve := by
          simp [validateArgs, hn]
        rw [hva]
        constructor
        · intro h; exact Option.noConfusion h
        · rintro ⟨h, _, _⟩; exact absurd h har
  · intro ve hva
    by_cases har : inTys.length ≤ args.length + 1
    · rw [validateArgs_variadic_unfold asg inTys args hlen0 har, helem] at hva
      rcases hf : fixedLoop asg inTys args 0 (inTys.length - 1) with _ | ve'
      · rw [hf] at hva
        rcases variLoop_some asg elemT args (args.length + 1 - inTys.length)
          (inTys.length - 1) ve hva with ⟨k, _, _, h3, h4⟩
        exact Or.inr ⟨k, elemT, h3, h4⟩
      · rw [hf] at hva
        have hve : ve' = ve := by
          simpa using hva
        subst hve
        rcases fixedLoop_some asg inTys args (inTys.length - 1) 0 ve' hf with
          ⟨k, _, _, h3, h4⟩
        exact Or.inr ⟨k, inTys.getD k Ty.err, h3, h4⟩
    · rcases hn : (validateNums inTys true args).2.2.2 with _ | ve'
      · exact absurd ((validateNums_var_none_iff inTys args).mp hn) har
      · have hva' : validateArgs asg inTys true args = some ve' := by
          simp [validateArgs, hn]
        rw [hva'] at hva
        have hve : ve' = ve := by simpa using hva
        subst hve
        rcases validateNums_var_some_shape inTys args ve' hn with ⟨w, g, b, hb⟩
        exact Or.inl ⟨w, g, b, hb, by omega⟩

theorem c9_witness :
    validateArgs (fun a b => a == b)
      [Ty.named "string", Ty.slice (Ty.named "int")] true
      [Ty.named "string", Ty.named "int", Ty.named "int"] = none := by
  refine ((c9_variadic_validation (fun a b => a == b)
    [Ty.named "string", Ty.slice (Ty.named "int")] (Ty.named "int")
    [Ty.named "string", Ty.named "int", Ty.named "int"] rfl).2.1).mpr
    ⟨by decide, ?_, ?_⟩
  · intro k hk
    simp only [List.length_cons, List.length_nil] at hk
    have hk0 : k = 0 := by omega
    subst hk0
    rfl
  · intro k h1 h2
    simp only [List.length_cons, List.length_nil] at h1 h2
    have hk : k = 1 ∨ k = 2 := by omega
    rcases hk with rfl | rfl <;> rfl

end GoQueue
